import Mathlib

/-!
Verification development for the logmunch log indexing and search engine.

Rust strings are modelled as lists of Unicode scalar values (`Str := List Char`),
matching Rust's `char` iteration.  `str::to_lowercase` is modelled by the
scalar-wise `Char.toLower` map.  Hash sets (`FxHashSet`) are modelled as
duplicate-free lists built with `insertUniq`, which determinizes the set's
iteration order to insertion order; no theorem below depends on that order.
Fallible Rust code returning `Result` is modelled with the `Outcome` type,
whose `crash` constructor stands for a Rust panic (`unwrap` on `None`,
index out of bounds), which is distinct from returning an `Err`.
-/

abbrev Str := List Char

/-- Outcome of a fallible Rust computation: `ok`, a returned `Err`, or a panic
(`crash`). -/
inductive Outcome (α : Type) where
  | ok (a : α)
  | err
  | crash
deriving DecidableEq

/-- Model of `str::to_lowercase`, applied scalar-wise. -/
def lowerStr (s : Str) : Str := s.map Char.toLower

/-- Model of inserting into a hash set represented as a duplicate-free list. -/
def insertUniq {α : Type} [DecidableEq α] (l : List α) (a : α) : List α :=
  if a ∈ l then l else l ++ [a]

/-- Model of splitting a string on a single character: `str::split(c)`.
Always returns a non-empty list; adjacent separators and separators at the
ends give empty pieces, matching Rust. -/
def splitOnChar (x : Char) : Str → List Str
  | [] => [[]]
  | c :: rest =>
    if c = x then [] :: splitOnChar x rest
    else
      match splitOnChar x rest with
      | [] => [[c]]
      | s :: ss => (c :: s) :: ss

/-- Model of splitting on a character predicate (used for
`str::split_whitespace` below): pieces between separator characters,
separators dropped. -/
def splitOnPred (p : Char → Bool) : Str → List Str
  | [] => [[]]
  | c :: rest =>
    if p c then [] :: splitOnPred p rest
    else
      match splitOnPred p rest with
      | [] => [[c]]
      | s :: ss => (c :: s) :: ss

/-- Model of `str::split_whitespace`: split on whitespace and drop empty
pieces. -/
def wordsOf (l : Str) : List Str :=
  (splitOnPred (fun c => c.isWhitespace) l).filter (fun w => !w.isEmpty)

/-! ## The fragment extractor: `Minute::explode` (src/logmunch/src/minute.rs)

The Rust function takes a `&mut HashSet<String>` accumulator and a string,
and for each whitespace-separated word pushes characters onto a vector,
inserting the lowercased last-three-characters window once the vector holds
more than two characters. -/

/-- Lowercased window of the last three characters of a vector (what the Rust
loop inserts: `vec[l-3..].iter().collect::<String>().to_lowercase()`). -/
def wnd (l : Str) : Str := lowerStr (l.drop (l.length - 3))

/-- Inner character loop of `Minute::explode`: `vec` is the vector of
characters of the word consumed so far; once it holds more than two
characters, the lowercased last-three window is inserted. -/
def explodeWordAux (fragments : List Str) (vec : Str) : Str → List Str
  | [] => fragments
  | c :: rest =>
    if 2 < (vec ++ [c]).length then
      explodeWordAux (insertUniq fragments (wnd (vec ++ [c]))) (vec ++ [c]) rest
    else
      explodeWordAux fragments (vec ++ [c]) rest

/-- Per-word loop body of `Minute::explode`. -/
def explodeWord (fragments : List Str) (word : Str) : List Str :=
  explodeWordAux fragments [] word

/-- Model of `Minute::explode`: accumulate the lowercased trigram windows of
every whitespace-separated word of `data` into `fragments`. -/
def explode (fragments : List Str) (data : Str) : List Str :=
  (wordsOf data).foldl explodeWord fragments

/-- The contiguous lowercased 3-scalar windows of a word, as the spec words
them: one window starting at each position `i < length - 2`. -/
def windows3 (word : Str) : List Str :=
  (List.range (word.length - 2)).map (fun i => lowerStr ((word.drop i).take 3))

/-! ## The search tree (src/logmunch/src/search_token.rs)

A `GrowableBloom` is modelled by its membership function `Str → Bool`;
the `lambda_test` predicate takes a token's trigram set as a list. -/

def isPrefOf : Str → Str → Bool
  | [], _ => true
  | _ :: _, [] => false
  | a :: xs, b :: ys => a = b && isPrefOf xs ys

/-- Model of `str::contains(pat)`: some suffix of the haystack starts with
the pattern. -/
def strContains : Str → Str → Bool
  | [], pat => pat.isEmpty
  | c :: rest, pat => isPrefOf pat (c :: rest) || strContains rest pat

inductive SearchTree where
  | none
  | token (tok : Str) (trigrams : List Str)
  | not (t : SearchTree)
  | and (l r : SearchTree)
  | or (l r : SearchTree)
deriving DecidableEq

/-- Model of `SearchTree::test`: case-insensitive substring check at leaves,
standard boolean combinators, `Or` short-circuits against `None` operands. -/
def SearchTree.test : SearchTree → Str → Bool
  | .none, _ => true
  | .token tok _, event => strContains (lowerStr event) tok
  | .not t, event => !t.test event
  | .and l r, event => l.test event && r.test event
  | .or l r, event =>
    if l = .none then r.test event
    else if r = .none then l.test event
    else l.test event || r.test event

/-- Model of `SearchTree::bloom_test`: at a leaf, every trigram must be in
the filter; `Not` returns true unconditionally. -/
def SearchTree.bloom_test : SearchTree → (Str → Bool) → Bool
  | .none, _ => true
  | .token _ trigrams, filter => trigrams.all filter
  | .not _, _ => true
  | .and l r, filter => l.bloom_test filter && r.bloom_test filter
  | .or l r, filter =>
    if l = .none then r.bloom_test filter
    else if r = .none then l.bloom_test filter
    else l.bloom_test filter || r.bloom_test filter

/-- Model of `SearchTree::lambda_test`: at a leaf, call the supplied
predicate on the trigram set; `Not` returns true unconditionally. -/
def SearchTree.lambda_test : SearchTree → (List Str → Bool) → Bool
  | .none, _ => true
  | .token _ trigrams, lam => lam trigrams
  | .not _, _ => true
  | .and l r, lam => l.lambda_test lam && r.lambda_test lam
  | .or l r, lam =>
    if l = .none then r.lambda_test lam
    else if r = .none then l.lambda_test lam
    else l.lambda_test lam || r.lambda_test lam

/-! ## The minute store (src/logmunch/src/minute.rs)

The embedded SQL store is modelled by its three tables as lists of rows.
The bloom blob is modelled by the list of fragments inserted into the
`GrowableBloom` (postcard serialization is modelled as the identity, so
"deserializing the stored blob" gives back that list; the real filter has
false positives but never false negatives, so set membership of the
inserted fragments underapproximates `contains` exactly in the direction
the claims need).  The wall-clock timestamps the code reads are passed in
as explicit parameters. -/

structure WritableEvent where
  event : Str
  time : Int
  host : Str
deriving DecidableEq

structure LogRow where
  id : Int
  batch : Int
  log : Str
  host : Str
  host_time : Int
deriving DecidableEq

structure FragRow where
  id : Int
  batch : Int
  fragment : Str
deriving DecidableEq

/-- The `Log` rows returned by search (`minute.rs`). -/
structure Log where
  id : Int
  message : Str
  time : Int
  host : Str
deriving DecidableEq

structure MinuteState where
  logs : List LogRow
  fragRows : List FragRow
  bloomRows : List (Int × List Str)
deriving DecidableEq

/-- A freshly created minute: the three tables are empty. -/
def freshMinute : MinuteState := ⟨[], [], []⟩

/-- Log rows inserted by one `write_second` batch: the k-th event gets
`id = timestamp * 10^6 + k`. -/
def eventRows (ts : Int) : Nat → List WritableEvent → List LogRow
  | _, [] => []
  | seq, e :: rest =>
    ⟨ts * 1000000 + Int.ofNat seq, ts, e.event, e.host, e.time⟩ ::
      eventRows ts (seq + 1) rest

/-- Fragment rows inserted by one `write_second` batch: the sequence counter
continues past the events and is incremented before each insert. -/
def fragmentRows (ts : Int) : Nat → List Str → List FragRow
  | _, [] => []
  | seq, fr :: rest =>
    ⟨ts * 1000000 + Int.ofNat (seq + 1), ts, fr⟩ :: fragmentRows ts (seq + 1) rest

/-- The fragment set accumulated over one batch: for each event, explode its
message into the set, then insert its host verbatim. -/
def batchFragments (events : List WritableEvent) : List Str :=
  events.foldl (fun acc e => insertUniq (explode acc e.event) e.host) []

/-- Model of `Minute::write_second` / `write_events_to_transaction` at
millisecond timestamp `ts` (which is also the batch tag). -/
def Minute.write_second (m : MinuteState) (ts : Int)
    (events : List WritableEvent) : MinuteState :=
  { m with
    logs := m.logs ++ eventRows ts 0 events
    fragRows := m.fragRows ++ fragmentRows ts events.length (batchFragments events) }

/-- The distinct fragments of the whole minute (`SELECT DISTINCT fragment`). -/
def distinctFragments (m : MinuteState) : List Str :=
  m.fragRows.foldl (fun acc r => insertUniq acc r.fragment) []

/-- Model of `Minute::generate_bloom_filter`: insert every distinct fragment
into a fresh bloom and store its serialization as a new bloom row keyed by a
microsecond timestamp. -/
def Minute.generate_bloom_filter (m : MinuteState) (tsMicros : Int) : MinuteState :=
  { m with bloomRows := m.bloomRows ++ [(tsMicros, distinctFragments m)] }

/-- Model of `Minute::seal`: index creation and vacuum do not change table
contents; the data effect is `generate_bloom_filter`. -/
def Minute.seal (m : MinuteState) (tsMicros : Int) : MinuteState :=
  Minute.generate_bloom_filter m tsMicros

/-- Model of `Minute::is_sealed`: the bloom table has at least one row. -/
def Minute.is_sealed (m : MinuteState) : Bool := !m.bloomRows.isEmpty

/-- The first row by ascending id (`ORDER BY id ASC LIMIT 1`); ties keep the
earlier row (ids are a primary key, so ties cannot occur in practice). -/
def minIdRow {α : Type} : List (Int × α) → Option (Int × α)
  | [] => Option.none
  | r :: rest =>
    match minIdRow rest with
    | Option.none => some r
    | some r' => if r'.1 < r.1 then some r' else some r

/-- Model of `Minute::get_bloom_filter`: deserialize the bloom row with the
smallest id; on an empty bloom table `rows.next()?.unwrap()` is a panic. -/
def Minute.get_bloom_filter (m : MinuteState) : Outcome (List Str) :=
  match minIdRow m.bloomRows with
  | Option.none => .crash
  | some r => .ok r.2

/-- The distinct batch tags of the minute (`SELECT DISTINCT batch FROM log`),
with the hash set's iteration order determinized to first occurrence. -/
def distinctBatches (m : MinuteState) : List Int :=
  m.logs.foldl (fun acc r => insertUniq acc r.batch) []

/-- The per-batch probe handed to `lambda_test` inside `Minute::search`:
every fragment of the set must occur in `search_fragments` for that batch. -/
def batchPredicate (m : MinuteState) (b : Int) (set : List Str) : Bool :=
  set.all (fun frag => m.fragRows.any (fun r => r.batch == b && r.fragment == frag))

/-- Model of `Minute::search`: for each distinct batch surviving the
fragment probe, load its rows and keep those whose `"<host> <message>"`
string passes the exact query test. -/
def Minute.search (m : MinuteState) (s : SearchTree) : List Log :=
  (distinctBatches m).flatMap (fun b =>
    if s.lambda_test (batchPredicate m b) then
      (m.logs.filter (fun r => r.batch == b)).filterMap (fun r =>
        if s.test (r.host ++ ' ' :: r.log) then
          some ⟨r.id, r.log, r.host_time, r.host⟩
        else Option.none)
    else [])

/-! ## Minute ids (src/logmunch/src/minute_id.rs) -/

structure MinuteId where
  day : Nat
  hour : Nat
  minute : Nat
  unique_id : Str
deriving DecidableEq

/-- Lexicographic order on strings (`String::cmp`; UTF-8 byte order agrees
with scalar-value order). -/
def strLtB : Str → Str → Bool
  | [], [] => false
  | [], _ :: _ => true
  | _ :: _, [] => false
  | a :: xs, b :: ys => decide (a < b) || (decide (a = b) && strLtB xs ys)

/-- Model of `MinuteId::partial_cmp`'s strict-less-than: lexicographic on
(day, hour, minute, unique_id). -/
def MinuteId.ltB (x y : MinuteId) : Bool :=
  if x.day ≠ y.day then decide (x.day < y.day)
  else if x.hour ≠ y.hour then decide (x.hour < y.hour)
  else if x.minute ≠ y.minute then decide (x.minute < y.minute)
  else strLtB x.unique_id y.unique_id

/-- Decimal printing of a `u32` value (`format!` with a numeric argument). -/
def natToStr (n : Nat) : Str :=
  if n = 0 then ['0'] else ((Nat.digits 10 n).reverse).map Nat.digitChar

def digitVal (c : Char) : Nat := c.toNat - 48

/-- The digit part of a decimal string after an optional leading plus. -/
def stripPlus (s : Str) : Str := if s.headD ' ' = '+' then s.tail else s

/-- The decimal value of a digit string, most significant digit first. -/
def digitsVal (t : Str) : Nat := t.foldl (fun a c => a * 10 + digitVal c) 0

/-- Model of `str::parse::<u32>`: optional leading plus, at least one digit,
value below 2^32. -/
def parseU32 (s : Str) : Option Nat :=
  if stripPlus s ≠ [] ∧ (stripPlus s).all Char.isDigit then
    if digitsVal (stripPlus s) < 4294967296 then some (digitsVal (stripPlus s))
    else Option.none
  else Option.none

/-- The sign of a decimal string with an optional leading sign. -/
def signOf (s : Str) : Int := if s.headD ' ' = '-' then -1 else 1

/-- The digit part of a decimal string after an optional leading sign. -/
def stripSign (s : Str) : Str :=
  if s.headD ' ' = '-' ∨ s.headD ' ' = '+' then s.tail else s

/-- Model of `str::parse::<i32>`: optional sign, at least one digit, value in
the i32 range. -/
def parseI32 (s : Str) : Option Int :=
  if stripSign s ≠ [] ∧ (stripSign s).all Char.isDigit then
    if -2147483648 ≤ signOf s * Int.ofNat (digitsVal (stripSign s)) ∧
        signOf s * Int.ofNat (digitsVal (stripSign s)) ≤ 2147483647 then
      some (signOf s * Int.ofNat (digitsVal (stripSign s)))
    else Option.none
  else Option.none

/-- Model of `MinuteId::to_string`: `"<day>-<hour>-<minute>-<unique_id>"`. -/
def MinuteId.toStr (m : MinuteId) : Str :=
  natToStr m.day ++ '-' ::
    (natToStr m.hour ++ '-' :: (natToStr m.minute ++ '-' :: m.unique_id))

/-- Model of `MinuteId::from_string`: split on dashes, parse pieces 0-2 as
`u32` (a failure propagates via the `?` operator as an `Err`), take piece 3
as the unique id; a missing piece is an out-of-bounds index, i.e. a panic. -/
def MinuteId.fromStr (s : Str) : Outcome MinuteId :=
  match (splitOnChar '-' s).get? 0 with
  | Option.none => .crash
  | some p0 =>
    match parseU32 p0 with
    | Option.none => .err
    | some day =>
      match (splitOnChar '-' s).get? 1 with
      | Option.none => .crash
      | some p1 =>
        match parseU32 p1 with
        | Option.none => .err
        | some hour =>
          match (splitOnChar '-' s).get? 2 with
          | Option.none => .crash
          | some p2 =>
            match parseU32 p2 with
            | Option.none => .err
            | some minute =>
              match (splitOnChar '-' s).get? 3 with
              | Option.none => .crash
              | some uid => .ok ⟨day, hour, minute, uid⟩

/-! ## The file-set scanner (src/logmunch/src/file_list.rs)

A directory walk is modelled by the list of entries it yields, each carrying
the path relative to the data directory (the code computes
`path.replace(data_directory, "")`), the file-type flag, the size and the
seconds-since-modification metadata. -/

structure RawEntry where
  isFile : Bool
  path : Str
  size : Nat
  modified : Int
deriving DecidableEq

structure FileInfo where
  path : Str
  size_bytes : Nat
  last_modified : Int
  day : Int
  hour : Int
  minute : Int
  sort_key : Int
  unique_id : Str
deriving DecidableEq

/-- Helper for `removeAll`: while `skip > 0`, the current character belongs
to an already-matched occurrence and is dropped. -/
def removeAllAux (pat : Str) : Nat → Str → Str
  | _, [] => []
  | skip + 1, _ :: rest => removeAllAux pat skip rest
  | 0, c :: rest =>
    if isPrefOf pat (c :: rest) then removeAllAux pat (pat.length - 1) rest
    else c :: removeAllAux pat 0 rest

/-- Model of `str::replace(pat, "")`: remove non-overlapping occurrences of a
pattern, scanning left to right (an empty pattern removes nothing, matching
Rust's replacement of empty matches by the empty string). -/
def removeAll (pat : Str) (s : Str) : Str :=
  match pat with
  | [] => s
  | _ :: _ => removeAllAux pat 0 s

def swpStr : Str := ['.', 's', 'w', 'p']

def walStr : Str := ['.', 'w', 'a', 'l']

def dbStr : Str := ['.', 'd', 'b']

/-- Model of `FileInfo::parse_path`: split the relative path on backslashes,
parse components 1 and 2 as day and hour, strip `.db` from component 3 and
split it on dashes, parse its first piece as the minute and take its second
piece as the shard id.  A Rust index out of range is a panic (`crash`); an
integer parse failure propagates via `?` as an `Err`. -/
def FileInfo.parse_path (path : Str) : Outcome (Int × Int × Int × Str) :=
  let parts := splitOnChar '\\' path
  match parts.get? 1 with
  | Option.none => .crash
  | some p1 =>
    match parseI32 p1 with
    | Option.none => .err
    | some day =>
      match parts.get? 2 with
      | Option.none => .crash
      | some p2 =>
        match parseI32 p2 with
        | Option.none => .err
        | some hour =>
          match parts.get? 3 with
          | Option.none => .crash
          | some p3 =>
            let parts2 := splitOnChar '-' (removeAll dbStr p3)
            match parseI32 (parts2.headD []) with
            | Option.none => .err
            | some minute =>
              match parts2.get? 1 with
              | Option.none => .crash
              | some uid => .ok (day, hour, minute, uid)

def mkFileInfo (e : RawEntry) (d h mi : Int) (uid : Str) : FileInfo :=
  ⟨e.path, e.size, e.modified, d, h, mi,
    d * 1000000 + h * 10000 + mi * 100 + e.modified, uid⟩

/-- The walk loop of `FileInfo::scan_and_clean`: skip non-files, track
write-ahead-log / swap sidecars in the in-use set, skip in-use base names,
log-and-skip parse errors, collect parsed files; a parse panic aborts. -/
def FileInfo.scanFold : List RawEntry → List FileInfo → List Str → Outcome (List FileInfo)
  | [], files, _ => .ok files
  | e :: rest, files, unop =>
    if e.isFile = false then FileInfo.scanFold rest files unop
    else
      let unop2 :=
        if strContains e.path swpStr || strContains e.path walStr then
          insertUniq unop (removeAll walStr (removeAll swpStr e.path))
        else unop
      if removeAll dbStr e.path ∈ unop2 then FileInfo.scanFold rest files unop2
      else
        match FileInfo.parse_path e.path with
        | .crash => .crash
        | .err => FileInfo.scanFold rest files unop2
        | .ok (d, h, mi, uid) =>
          FileInfo.scanFold rest (files ++ [mkFileInfo e d h mi uid]) unop2

/-- Descending comparison used by the scanner's sort:
`files.sort_by(|a, b| b.sort_key.cmp(&a.sort_key))`. -/
def fileGe (a b : FileInfo) : Prop := b.sort_key ≤ a.sort_key

instance : DecidableRel fileGe := fun a b => Int.decLe b.sort_key a.sort_key

instance : IsTotal FileInfo fileGe := ⟨fun a b => le_total b.sort_key a.sort_key⟩

instance : IsTrans FileInfo fileGe :=
  ⟨fun _ _ _ hab hbc => le_trans hbc hab⟩

/-- Model of `FileInfo::scan_and_clean`: walk the entries, stable-sort the
parsed files descending by `sort_key` (a stable sort under a total preorder
has a unique result, so insertion sort computes exactly what Rust's stable
`sort_by` does), keep the first `n_minutes` and delete the rest from disk
(returned here as the second component). -/
def FileInfo.scan_and_clean (entries : List RawEntry) (n_minutes : Nat) :
    Outcome (List FileInfo × List FileInfo) :=
  match FileInfo.scanFold entries [] [] with
  | .crash => .crash
  | .err => .err
  | .ok files =>
    let sorted := files.insertionSort fileGe
    .ok (sorted.take n_minutes, sorted.drop n_minutes)

/-! ## The minute database (src/logmunch/src/minute_db.rs)

The two `BTreeMap`s under the read-write lock are modelled by the list of
`bloom_cache` entries in iteration order (a `BTreeMap` iterates in ascending
key order) and by a lookup function for `db`.  A cached minute handle is
either live or failing (its mutex is poisoned or its storage errors). -/

inductive Handle where
  | live (m : MinuteState)
  | failed
deriving DecidableEq

/-- Model of `MinuteDB::search_within_minute`: a poisoned per-minute lock is
mapped to an error, and a live minute's search result is returned. -/
def MinuteDB.search_within_minute (h : Handle) (s : SearchTree) : Outcome (List Log) :=
  match h with
  | .live m => .ok (Minute.search m s)
  | .failed => .err

/-- The loop of `MinuteDB::search` over the bloom cache, carrying the
accumulated results; the `?` on `search_within_minute` propagates an error. -/
def MinuteDB.searchGo (db : MinuteId → Option Handle) (s : SearchTree) :
    List (MinuteId × (Str → Bool)) → List Log → Outcome (List Log)
  | [], acc => .ok acc
  | (mid, bloom) :: rest, acc =>
    if s.bloom_test bloom then
      match db mid with
      | some h =>
        match MinuteDB.search_within_minute h s with
        | .ok r =>
          if 30 < (acc ++ r).length then .ok (acc ++ r)
          else MinuteDB.searchGo db s rest (acc ++ r)
        | .err => .err
        | .crash => .crash
      | Option.none => MinuteDB.searchGo db s rest acc
    else MinuteDB.searchGo db s rest acc

/-- Model of `MinuteDB::search`: scan the bloom cache in iteration order,
then truncate the accumulated results to 1000. -/
def MinuteDB.search (bloomCache : List (MinuteId × (Str → Bool)))
    (db : MinuteId → Option Handle) (s : SearchTree) : Outcome (List Log) :=
  match MinuteDB.searchGo db s bloomCache [] with
  | .ok r => .ok (r.take 1000)
  | .err => .err
  | .crash => .crash

/-- The results one bloom-cache entry contributes to a completed scan:
nothing on a bloom miss or a missing handle, the minute's search results on
a live hit. -/
def minuteContribution (db : MinuteId → Option Handle) (s : SearchTree)
    (entry : MinuteId × (Str → Bool)) : List Log :=
  if s.bloom_test entry.2 then
    match db entry.1 with
    | some (.live m) => Minute.search m s
    | _ => []
  else []

/-- A sequence of `write_second` calls (each with its millisecond timestamp)
applied to a minute in order. -/
def writeMany (m : MinuteState) : List (Int × List WritableEvent) → MinuteState
  | [] => m
  | (ts, events) :: rest => writeMany (Minute.write_second m ts events) rest

/-! ## Concrete sample data used by witnesses and counterexamples -/

def evA : WritableEvent := ⟨("hello world").toList, 10, ("h1").toList⟩

def evB : WritableEvent := ⟨("needle found").toList, 11, ("h2").toList⟩

/-- A minute holding one batch with the single event `evA`, sealed. -/
def mA : MinuteState := Minute.seal (Minute.write_second freshMinute 100 [evA]) 999

/-- A minute holding one batch with the single event `evB`, sealed. -/
def mB : MinuteState := Minute.seal (Minute.write_second freshMinute 200 [evB]) 999

def idA : MinuteId := ⟨0, 0, 1, []⟩

def idB : MinuteId := ⟨0, 0, 2, []⟩

/-- A bloom filter that reports every fragment as present. -/
def bTrue : Str → Bool := fun _ => true

/-- A minute db mapping `idA` and `idB` to the live minutes `mA` and `mB`. -/
def dbAB : MinuteId → Option Handle :=
  fun k => if k = idA then some (.live mA) else if k = idB then some (.live mB)
    else Option.none

/-- A minute db where `idA` is live and `idB`'s lock is poisoned. -/
def dbAfail : MinuteId → Option Handle :=
  fun k => if k = idA then some (.live mA) else if k = idB then some Handle.failed
    else Option.none

/-- The log row `Minute.search` returns from `mA` for a matching query. -/
def logA : Log := ⟨100000000, ("hello world").toList, 10, ("h1").toList⟩

/-- The log row `Minute.search` returns from `mB` for a matching query. -/
def logB : Log := ⟨200000000, ("needle found").toList, 11, ("h2").toList⟩

/-- A one-token query whose trigram set is `{llo}`. -/
def qC1 : SearchTree := SearchTree.token (("llo").toList) [("llo").toList]

def entC5a : RawEntry := ⟨true, ("\\1\\0\\0-a.db").toList, 7, 3⟩

def entC5b : RawEntry := ⟨true, ("\\3\\0\\0-a.db").toList, 7, 3⟩

def entC5c : RawEntry := ⟨true, ("\\2\\0\\0-a.db").toList, 7, 3⟩

def fiC5a : FileInfo := ⟨("\\1\\0\\0-a.db").toList, 7, 3, 1, 0, 0, 1000003, ("a").toList⟩

def fiC5b : FileInfo := ⟨("\\3\\0\\0-a.db").toList, 7, 3, 3, 0, 0, 3000003, ("a").toList⟩

def fiC5c : FileInfo := ⟨("\\2\\0\\0-a.db").toList, 7, 3, 2, 0, 0, 2000003, ("a").toList⟩

/-- A regular file whose path parses to an integer failure (non-numeric
stem), which the scanner logs and skips. -/
def entC6err : RawEntry := ⟨true, ("\\2\\4\\readme.txt").toList, 0, 0⟩

/-- A regular file whose relative path does not match the
`<day>/<hour>/<minute>-<shard_id>.db` shape: its stem `6.db` parses as a
minute but has no dash, so `split[1]` is out of bounds. -/
def entC6crash : RawEntry := ⟨true, ("\\2\\4\\6.db").toList, 0, 0⟩

theorem mem_insertUniq {α : Type} [DecidableEq α] {l : List α} {a x : α} :
    x ∈ insertUniq l a ↔ x ∈ l ∨ x = a := by
  unfold insertUniq
  split
  · constructor
    · exact Or.inl
    · rintro (h | rfl)
      · exact h
      · assumption
  · simp

theorem insertUniq_self {α : Type} [DecidableEq α] (l : List α) (a : α) :
    a ∈ insertUniq l a := mem_insertUniq.mpr (Or.inr rfl)

theorem insertUniq_subset {α : Type} [DecidableEq α] (l : List α) (a : α) :
    ∀ x ∈ l, x ∈ insertUniq l a := fun _ hx => mem_insertUniq.mpr (Or.inl hx)

theorem insertUniq_eq_of_mem {α : Type} [DecidableEq α] {l : List α} {a : α}
    (h : a ∈ l) : insertUniq l a = l := by
  unfold insertUniq
  simp [h]

theorem insertUniq_nodup {α : Type} [DecidableEq α] {l : List α} (a : α)
    (h : l.Nodup) : (insertUniq l a).Nodup := by
  unfold insertUniq
  split
  · exact h
  · next hmem => simp [List.nodup_append, h, hmem]

theorem splitOnChar_ne_nil (x : Char) (l : Str) : splitOnChar x l ≠ [] := by
  cases l with
  | nil => simp [splitOnChar]
  | cons c rest =>
    unfold splitOnChar
    split
    · simp
    · split <;> simp

theorem splitOnChar_of_not_mem {x : Char} {l : Str} (h : x ∉ l) :
    splitOnChar x l = [l] := by
  induction l with
  | nil => rfl
  | cons c rest ih =>
    have hcx : ¬ c = x := fun hc => h (hc ▸ List.mem_cons_self c rest)
    have hrest : x ∉ rest := fun hr => h (List.mem_cons_of_mem c hr)
    unfold splitOnChar
    rw [if_neg hcx, ih hrest]

theorem splitOnChar_append {x : Char} {l₁ : Str} (l₂ : Str) (h : x ∉ l₁) :
    splitOnChar x (l₁ ++ x :: l₂) = l₁ :: splitOnChar x l₂ := by
  induction l₁ with
  | nil => simp [splitOnChar]
  | cons c rest ih =>
    have hcx : ¬ c = x := fun hc => h (hc ▸ List.mem_cons_self c rest)
    have hrest : x ∉ rest := fun hr => h (List.mem_cons_of_mem c hr)
    have hstep : splitOnChar x (c :: (rest ++ x :: l₂)) =
        if c = x then [] :: splitOnChar x (rest ++ x :: l₂)
        else
          match splitOnChar x (rest ++ x :: l₂) with
          | [] => [[c]]
          | s :: ss => (c :: s) :: ss := rfl
    rw [List.cons_append, hstep, if_neg hcx, ih hrest]

/-- Every element of a list with an occurrence of `x` splits at the first
occurrence. -/
theorem exists_first_occurrence {x : Char} {l : Str} (h : x ∈ l) :
    ∃ l₁ l₂, l = l₁ ++ x :: l₂ ∧ x ∉ l₁ := by
  induction l with
  | nil => cases h
  | cons c rest ih =>
    by_cases hc : c = x
    · exact ⟨[], rest, by simp [hc], by simp⟩
    · have hr : x ∈ rest := by
        rcases List.mem_cons.mp h with h1 | h1
        · exact absurd h1.symm hc
        · exact h1
      obtain ⟨l₁, l₂, heq, hnot⟩ := ih hr
      exact ⟨c :: l₁, l₂, by simp [heq], by
        intro hmem
        rcases List.mem_cons.mp hmem with h1 | h1
        · exact hc h1.symm
        · exact hnot h1⟩

theorem mem_explodeWordAux (x : Str) : ∀ (w : Str) (f : List Str) (v : Str),
    x ∈ explodeWordAux f v w ↔
      x ∈ f ∨ ∃ i, i < w.length ∧ 3 ≤ v.length + (i + 1) ∧
        x = wnd (v ++ w.take (i + 1))
  | [], f, v => by simp [explodeWordAux]
  | c :: rest, f, v => by
    have hlen1 : (v ++ [c]).length = v.length + 1 := by simp
    have hcr : (c :: rest).length = rest.length + 1 := by simp
    by_cases hlen : 2 < (v ++ [c]).length
    · rw [explodeWordAux, if_pos hlen, mem_explodeWordAux x rest]
      constructor
      · rintro (hf | ⟨i, hi, h3, hx⟩)
        · rcases mem_insertUniq.mp hf with hf | hx
          · exact Or.inl hf
          · refine Or.inr ⟨0, by omega, by omega, ?_⟩
            simpa using hx
        · refine Or.inr ⟨i + 1, by omega, by omega, ?_⟩
          rw [hx]
          congr 1
          simp
      · rintro (hf | ⟨i, hi, h3, hx⟩)
        · exact Or.inl (insertUniq_subset _ _ _ hf)
        · cases i with
          | zero =>
            left
            have : x = wnd (v ++ [c]) := by simpa using hx
            rw [this]
            exact insertUniq_self _ _
          | succ j =>
            refine Or.inr ⟨j, by omega, by omega, ?_⟩
            rw [hx]
            congr 1
            simp
    · rw [explodeWordAux, if_neg hlen, mem_explodeWordAux x rest]
      constructor
      · rintro (hf | ⟨i, hi, h3, hx⟩)
        · exact Or.inl hf
        · refine Or.inr ⟨i + 1, by omega, by omega, ?_⟩
          rw [hx]
          congr 1
          simp
      · rintro (hf | ⟨i, hi, h3, hx⟩)
        · exact Or.inl hf
        · cases i with
          | zero => omega
          | succ j =>
            refine Or.inr ⟨j, by omega, by omega, ?_⟩
            rw [hx]
            congr 1
            simp

theorem mem_windows3 {x : Str} {w : Str} :
    x ∈ windows3 w ↔ ∃ j, j < w.length - 2 ∧ x = lowerStr ((w.drop j).take 3) := by
  simp only [windows3, List.mem_map, List.mem_range]
  constructor
  · rintro ⟨j, hj, rfl⟩
    exact ⟨j, hj, rfl⟩
  · rintro ⟨j, hj, rfl⟩
    exact ⟨j, hj, rfl⟩

theorem mem_explodeWord {x : Str} {f : List Str} {w : Str} :
    x ∈ explodeWord f w ↔ x ∈ f ∨ x ∈ windows3 w := by
  rw [explodeWord, mem_explodeWordAux x w f [], mem_windows3]
  apply or_congr Iff.rfl
  simp only [List.length_nil, List.nil_append, Nat.zero_add]
  constructor
  · rintro ⟨i, hi, h3, rfl⟩
    refine ⟨i - 2, by omega, ?_⟩
    have htk : (w.take (i + 1)).length = i + 1 := by
      rw [List.length_take]
      omega
    have ha : i + 1 - 3 = i - 2 := by omega
    have hb : i + 1 - (i - 2) = 3 := by omega
    rw [wnd, htk, ha, List.drop_take, hb]
  · rintro ⟨j, hj, rfl⟩
    refine ⟨j + 2, by omega, by omega, ?_⟩
    have htk : (w.take (j + 2 + 1)).length = j + 2 + 1 := by
      rw [List.length_take]
      omega
    have ha : j + 2 + 1 - 3 = j := by omega
    have hb : j + 2 + 1 - j = 3 := by omega
    rw [wnd, htk, ha, List.drop_take, hb]

theorem mem_foldl_explodeWord (x : Str) :
    ∀ (ws : List Str) (f : List Str),
      x ∈ ws.foldl explodeWord f ↔ x ∈ f ∨ ∃ w ∈ ws, x ∈ windows3 w
  | [], f => by simp
  | w :: rest, f => by
    rw [List.foldl_cons, mem_foldl_explodeWord x rest, mem_explodeWord]
    constructor
    · rintro ((hf | hw) | ⟨w', hw', hx⟩)
      · exact Or.inl hf
      · exact Or.inr ⟨w, List.mem_cons_self _ _, hw⟩
      · exact Or.inr ⟨w', List.mem_cons_of_mem _ hw', hx⟩
    · rintro (hf | ⟨w', hw', hx⟩)
      · exact Or.inl (Or.inl hf)
      · rcases List.mem_cons.mp hw' with rfl | hw'
        · exact Or.inl (Or.inr hx)
        · exact Or.inr ⟨w', hw', hx⟩

/-- Membership characterization of `Minute::explode`: the accumulator's
elements plus, for each whitespace-separated word, its lowercased 3-scalar
windows. -/
theorem mem_explode {x : Str} {f : List Str} {data : Str} :
    x ∈ explode f data ↔ x ∈ f ∨ ∃ w ∈ wordsOf data, x ∈ windows3 w :=
  mem_foldl_explodeWord x (wordsOf data) f

theorem explodeWordAux_nodup : ∀ (w : Str) (f : List Str) (v : Str),
    f.Nodup → (explodeWordAux f v w).Nodup
  | [], _, _, h => h
  | c :: rest, f, v, h => by
    rw [explodeWordAux]
    split
    · exact explodeWordAux_nodup rest _ _ (insertUniq_nodup _ h)
    · exact explodeWordAux_nodup rest _ _ h

theorem explode_nodup {f : List Str} {data : Str} (h : f.Nodup) :
    (explode f data).Nodup := by
  rw [explode]
  generalize wordsOf data = ws
  induction ws generalizing f with
  | nil => exact h
  | cons w rest ih => exact ih (explodeWordAux_nodup w f [] h)

theorem explodeWordAux_eq_of_closed : ∀ (w : Str) (f : List Str) (v : Str),
    (∀ x, x ∈ explodeWordAux f v w → x ∈ f) → explodeWordAux f v w = f
  | [], _, _, _ => rfl
  | c :: rest, f, v, h => by
    rw [explodeWordAux] at h ⊢
    split
    · next hlen =>
      rw [if_pos hlen] at h
      have hwnd : wnd (v ++ [c]) ∈ f := by
        apply h
        rw [mem_explodeWordAux]
        exact Or.inl (insertUniq_self _ _)
      rw [insertUniq_eq_of_mem hwnd] at h ⊢
      exact explodeWordAux_eq_of_closed rest f (v ++ [c]) h
    · next hlen =>
      rw [if_neg hlen] at h
      exact explodeWordAux_eq_of_closed rest f (v ++ [c]) h

theorem explode_eq_of_closed {f : List Str} {data : Str}
    (h : ∀ x, x ∈ explode f data → x ∈ f) : explode f data = f := by
  revert h
  rw [explode]
  generalize wordsOf data = ws
  induction ws generalizing f with
  | nil => exact fun _ => rfl
  | cons w rest ih =>
    intro h
    rw [List.foldl_cons] at h ⊢
    have hw : explodeWord f w = f := by
      apply explodeWordAux_eq_of_closed
      intro x hx
      apply h
      exact (mem_foldl_explodeWord x rest (explodeWord f w)).mpr (Or.inl hx)
    rw [hw] at h ⊢
    exact ih h

/-! ## Claim theorems -/

/-- C7: for every search tree `t`, every bloom filter `f` and every predicate
`p`, the probing modes treat negation as unconditionally true:
`Not(t).bloom_test(f) = true` and `Not(t).lambda_test(p) = true`. -/
theorem c7_not_probes_true (t : SearchTree) (f : Str → Bool) (p : List Str → Bool) :
    (SearchTree.not t).bloom_test f = true ∧ (SearchTree.not t).lambda_test p = true :=
  ⟨rfl, rfl⟩

/-- C1: every `Log` returned by `Minute::search` on a sealed minute passes
the exact-match test on the string `"<host> <message>"`; since the result
list contains only such rows, no failing row is returned. -/
theorem c1_search_results_pass_test (m : MinuteState) (s : SearchTree) (lg : Log)
    (_hsealed : Minute.is_sealed m = true)
    (hmem : lg ∈ Minute.search m s) :
    s.test (lg.host ++ ' ' :: lg.message) = true := by
  unfold Minute.search at hmem
  rw [List.mem_flatMap] at hmem
  obtain ⟨b, _, hb⟩ := hmem
  split at hb
  · rw [List.mem_filterMap] at hb
    obtain ⟨r, _, hok⟩ := hb
    split at hok
    · next htest =>
      cases hok
      exact htest
    · cases hok
  · cases hb

/-- Witness for C1 at a concrete sealed minute, query and returned log. -/
theorem c1_witness : SearchTree.test qC1 (logA.host ++ ' ' :: logA.message) = true :=
  c1_search_results_pass_test mA qC1 logA (by decide) (by decide)

/-- C8: `explode` splits on whitespace and emits, for each word, exactly the
lowercased contiguous 3-scalar windows (a word shorter than 3 scalars emits
nothing, since it has no such window); the result is duplicate-free; and a
repeated call on the same input leaves the set unchanged. -/
theorem c8_explode_characterization (text : Str) :
    (∀ x, x ∈ explode [] text ↔ ∃ w ∈ wordsOf text, x ∈ windows3 w) ∧
    (explode [] text).Nodup ∧
    explode (explode [] text) text = explode [] text := by
  refine ⟨fun x => ?_, explode_nodup List.nodup_nil, ?_⟩
  · rw [mem_explode]
    simp
  · apply explode_eq_of_closed
    intro x hx
    rw [mem_explode] at hx
    rcases hx with hx | hx
    · exact hx
    · exact mem_explode.mpr (Or.inr hx)

theorem foldl_mem_preserved {α β : Type} (step : List α → β → List α)
    (hmono : ∀ acc y x, x ∈ acc → x ∈ step acc y) :
    ∀ (l : List β) (acc : List α) (x : α), x ∈ acc → x ∈ l.foldl step acc
  | [], _, _, h => h
  | y :: rest, acc, x, h =>
    foldl_mem_preserved step hmono rest (step acc y) x (hmono acc y x h)

theorem batchStep_mono (acc : List Str) (e : WritableEvent) (x : Str)
    (h : x ∈ acc) : x ∈ insertUniq (explode acc e.event) e.host :=
  insertUniq_subset _ _ _ (mem_explode.mpr (Or.inl h))

/-- Every fragment extracted from an event of the batch (a trigram of its
message or its host) is in the batch's fragment set. -/
theorem mem_batchFragments {events : List WritableEvent} {e : WritableEvent}
    (he : e ∈ events) {frag : Str}
    (hfrag : frag ∈ explode [] e.event ∨ frag = e.host) :
    frag ∈ batchFragments events := by
  obtain ⟨l1, l2, rfl⟩ := List.append_of_mem he
  unfold batchFragments
  rw [List.foldl_append, List.foldl_cons]
  apply foldl_mem_preserved _ batchStep_mono
  rcases hfrag with hfrag | rfl
  · apply insertUniq_subset
    apply mem_explode.mpr
    rw [mem_explode] at hfrag
    rcases hfrag with hfrag | hfrag
    · cases hfrag
    · exact Or.inr hfrag
  · exact insertUniq_self _ _

theorem mem_fragmentRows {frag : Str} :
    ∀ (set : List Str) (ts : Int) (seq : Nat), frag ∈ set →
      ∃ r ∈ fragmentRows ts seq set, r.fragment = frag
  | [], _, _, h => absurd h (List.not_mem_nil frag)
  | fr :: rest, ts, seq, h => by
    rcases List.mem_cons.mp h with rfl | h
    · exact ⟨⟨ts * 1000000 + Int.ofNat (seq + 1), ts, frag⟩,
        List.mem_cons_self _ _, rfl⟩
    · obtain ⟨r, hr, hfr⟩ := mem_fragmentRows rest ts (seq + 1) h
      exact ⟨r, List.mem_cons_of_mem _ hr, hfr⟩

theorem writeMany_fragRows_mono :
    ∀ (calls : List (Int × List WritableEvent)) (m : MinuteState) (r : FragRow),
      r ∈ m.fragRows → r ∈ (writeMany m calls).fragRows
  | [], _, _, h => h
  | (ts, events) :: rest, m, r, h =>
    writeMany_fragRows_mono rest (Minute.write_second m ts events) r
      (by
        unfold Minute.write_second
        exact List.mem_append_left _ h)

theorem writeMany_bloomRows :
    ∀ (calls : List (Int × List WritableEvent)) (m : MinuteState),
      (writeMany m calls).bloomRows = m.bloomRows
  | [], _ => rfl
  | (ts, events) :: rest, m =>
    writeMany_bloomRows rest (Minute.write_second m ts events)

/-- Any fragment row of one of the write calls ends up in the final
fragment table. -/
theorem mem_writeMany_fragRows :
    ∀ (calls : List (Int × List WritableEvent)) (m : MinuteState)
      (call : Int × List WritableEvent), call ∈ calls →
      ∀ r ∈ fragmentRows call.1 call.2.length (batchFragments call.2),
        r ∈ (writeMany m calls).fragRows
  | [], _, _, hcall, _, _ => absurd hcall (List.not_mem_nil _)
  | (ts, events) :: rest, m, call, hcall, r, hr => by
    rcases List.mem_cons.mp hcall with rfl | hcall
    · apply writeMany_fragRows_mono rest
      unfold Minute.write_second
      exact List.mem_append_right _ hr
    · exact mem_writeMany_fragRows rest (Minute.write_second m ts events) call hcall r hr

theorem mem_distinctFragments {m : MinuteState} {r : FragRow}
    (h : r ∈ m.fragRows) : r.fragment ∈ distinctFragments m := by
  obtain ⟨l1, l2, hsplit⟩ := List.append_of_mem h
  unfold distinctFragments
  rw [hsplit, List.foldl_append, List.foldl_cons]
  apply foldl_mem_preserved _ (fun acc y x hx => insertUniq_subset _ _ _ hx)
  exact insertUniq_self _ _

/-- C2: after sealing a minute built from any sequence of `write_second`
calls, the stored bloom filter contains every fragment extracted from every
event of every call — every lowercased 3-scalar trigram of the message
(`explode`) and the host string verbatim.  The bloom may contain extras but
misses none. -/
theorem c2_bloom_superset (calls : List (Int × List WritableEvent)) (tsSeal : Int)
    (call : Int × List WritableEvent) (hcall : call ∈ calls)
    (e : WritableEvent) (he : e ∈ call.2) (frag : Str)
    (hfrag : frag ∈ explode [] e.event ∨ frag = e.host) :
    ∃ b, Minute.get_bloom_filter (Minute.seal (writeMany freshMinute calls) tsSeal)
        = .ok b ∧ frag ∈ b := by
  have hset : frag ∈ batchFragments call.2 := mem_batchFragments he hfrag
  obtain ⟨r, hr, hfr⟩ := mem_fragmentRows (batchFragments call.2) call.1 call.2.length hset
  have hrow : r ∈ (writeMany freshMinute calls).fragRows :=
    mem_writeMany_fragRows calls freshMinute call hcall r hr
  refine ⟨distinctFragments (writeMany freshMinute calls), ?_, ?_⟩
  · unfold Minute.get_bloom_filter Minute.seal Minute.generate_bloom_filter
    rw [writeMany_bloomRows]
    rfl
  · rw [← hfr]
    exact mem_distinctFragments hrow

/-- Witness for C2 at a concrete write call, event and fragment. -/
theorem c2_witness :
    ∃ b, Minute.get_bloom_filter (Minute.seal (writeMany freshMinute [(100, [evA])]) 999)
        = .ok b ∧ ("llo").toList ∈ b :=
  c2_bloom_superset [(100, [evA])] 999 (100, [evA]) (by decide) evA (by decide)
    (("llo").toList) (Or.inl (by decide))

theorem minIdRow_isSome {α : Type} :
    ∀ (l : List (Int × α)), l ≠ [] → ∃ r, minIdRow l = some r
  | [], h => absurd rfl h
  | r :: rest, _ => by
    rw [minIdRow]
    cases hrest : minIdRow rest with
    | none => exact ⟨r, rfl⟩
    | some r' =>
      by_cases hlt : r'.1 < r.1
      · refine ⟨r', ?_⟩
        show (if r'.1 < r.1 then some r' else some r) = some r'
        rw [if_pos hlt]
      · refine ⟨r, ?_⟩
        show (if r'.1 < r.1 then some r' else some r) = some r
        rw [if_neg hlt]

theorem minIdRow_mem_min {α : Type} :
    ∀ (l : List (Int × α)) (r : Int × α), minIdRow l = some r →
      r ∈ l ∧ ∀ x ∈ l, r.1 ≤ x.1
  | [], r, h => by cases h
  | hd :: rest, r, h => by
    rw [minIdRow] at h
    cases hrest : minIdRow rest with
    | none =>
      rw [hrest] at h
      cases h
      have hnil : rest = [] := by
        cases rest with
        | nil => rfl
        | cons a t =>
          obtain ⟨r', hr'⟩ := minIdRow_isSome (a :: t) (by simp)
          rw [hr'] at hrest
          cases hrest
      subst hnil
      exact ⟨List.mem_cons_self _ _, by
        intro x hx
        rcases List.mem_cons.mp hx with rfl | hx
        · exact le_refl _
        · cases hx⟩
    | some r' =>
      rw [hrest] at h
      have h2 : (if r'.1 < hd.1 then some r' else some hd) = some r := h
      clear h
      obtain ⟨hmem', hmin'⟩ := minIdRow_mem_min rest r' hrest
      by_cases hlt : r'.1 < hd.1
      · rw [if_pos hlt] at h2
        cases h2
        refine ⟨List.mem_cons_of_mem _ hmem', ?_⟩
        intro x hx
        rcases List.mem_cons.mp hx with rfl | hx
        · exact le_of_lt hlt
        · exact hmin' x hx
      · rw [if_neg hlt] at h2
        cases h2
        refine ⟨List.mem_cons_self _ _, ?_⟩
        intro x hx
        rcases List.mem_cons.mp hx with rfl | hx
        · exact le_refl _
        · exact le_trans (le_of_not_lt hlt) (hmin' x hx)

/-- C9 (amended): on a sealed minute `get_bloom_filter` returns the stored
bloom of the row with the smallest id; on an unsealed minute (empty bloom
table) the `unwrap` of the missing row is a panic, not a returned error. -/
theorem c9_get_bloom_filter (m : MinuteState) :
    (Minute.is_sealed m = false → Minute.get_bloom_filter m = .crash) ∧
    (Minute.is_sealed m = true →
      ∃ r, r ∈ m.bloomRows ∧ (∀ x ∈ m.bloomRows, r.1 ≤ x.1) ∧
        Minute.get_bloom_filter m = .ok r.2) := by
  constructor
  · intro hseal
    have hnil : m.bloomRows = [] := by
      unfold Minute.is_sealed at hseal
      simpa using hseal
    unfold Minute.get_bloom_filter
    rw [hnil]
    rfl
  · intro hseal
    have hne : m.bloomRows ≠ [] := by
      unfold Minute.is_sealed at hseal
      simpa using hseal
    obtain ⟨r, hr⟩ := minIdRow_isSome m.bloomRows hne
    obtain ⟨hmem, hmin⟩ := minIdRow_mem_min m.bloomRows r hr
    refine ⟨r, hmem, hmin, ?_⟩
    unfold Minute.get_bloom_filter
    rw [hr]

/-- Counterexample to C9 as stated: an unsealed minute (empty bloom table)
makes `get_bloom_filter` panic (`rows.next()?.unwrap()` on no row) rather
than return an error. -/
theorem c9_counterexample :
    Minute.is_sealed freshMinute = false ∧
    Minute.get_bloom_filter freshMinute = .crash ∧
    Minute.get_bloom_filter freshMinute ≠ .err := by decide

/-- Witness for C9 (amended) at a concrete sealed minute. -/
theorem c9_witness :
    ∃ r, r ∈ (Minute.seal mA 1000).bloomRows ∧
      (∀ x ∈ (Minute.seal mA 1000).bloomRows, r.1 ≤ x.1) ∧
      Minute.get_bloom_filter (Minute.seal mA 1000) = .ok r.2 :=
  (c9_get_bloom_filter (Minute.seal mA 1000)).2 (by decide)

/-- If the scan of a prefix of the bloom cache completes with at most 30
accumulated results, the scan of the whole cache continues into the suffix
with that accumulator. -/
theorem searchGo_append (db : MinuteId → Option Handle) (s : SearchTree) :
    ∀ (l1 l2 : List (MinuteId × (Str → Bool))) (acc acc' : List Log),
      MinuteDB.searchGo db s l1 acc = .ok acc' → acc'.length ≤ 30 →
      MinuteDB.searchGo db s (l1 ++ l2) acc = MinuteDB.searchGo db s l2 acc'
  | [], l2, acc, acc', h, _ => by
    cases h
    rfl
  | (mid, bloom) :: rest, l2, acc, acc', h, hlen => by
    rw [MinuteDB.searchGo] at h
    rw [List.cons_append, MinuteDB.searchGo]
    by_cases hb : s.bloom_test bloom = true
    · rw [if_pos hb] at h ⊢
      cases hdb : db mid with
      | none =>
        rw [hdb] at h
        have h2 : MinuteDB.searchGo db s rest acc = .ok acc' := h
        show MinuteDB.searchGo db s (rest ++ l2) acc = MinuteDB.searchGo db s l2 acc'
        exact searchGo_append db s rest l2 acc acc' h2 hlen
      | some hd =>
        rw [hdb] at h
        cases hd with
        | live m =>
          have h2 : (if 30 < (acc ++ Minute.search m s).length
              then Outcome.ok (acc ++ Minute.search m s)
              else MinuteDB.searchGo db s rest (acc ++ Minute.search m s))
              = .ok acc' := h
          show (if 30 < (acc ++ Minute.search m s).length
              then Outcome.ok (acc ++ Minute.search m s)
              else MinuteDB.searchGo db s (rest ++ l2) (acc ++ Minute.search m s))
              = MinuteDB.searchGo db s l2 acc'
          by_cases h30 : 30 < (acc ++ Minute.search m s).length
          · rw [if_pos h30] at h2
            cases h2
            omega
          · rw [if_neg h30] at h2
            rw [if_neg h30]
            exact searchGo_append db s rest l2 _ acc' h2 hlen
        | failed =>
          have h2 : (Outcome.err : Outcome (List Log)) = .ok acc' := h
          cases h2
    · rw [if_neg hb] at h ⊢
      exact searchGo_append db s rest l2 acc acc' h hlen

/-- C3 (amended): a per-minute failure (poisoned lock or storage error)
encountered while scanning the bloom cache is propagated by the `?` operator:
`MinuteDB::search` returns the error to its caller and the results
accumulated before the failure are discarded, not returned. -/
theorem c3_search_propagates_error (bc1 rest : List (MinuteId × (Str → Bool)))
    (mid : MinuteId) (bloom : Str → Bool) (db : MinuteId → Option Handle)
    (s : SearchTree) (acc : List Log)
    (hpre : MinuteDB.searchGo db s bc1 [] = .ok acc) (hlen : acc.length ≤ 30)
    (hbloom : s.bloom_test bloom = true) (hfail : db mid = some Handle.failed) :
    MinuteDB.search (bc1 ++ (mid, bloom) :: rest) db s = .err := by
  unfold MinuteDB.search
  rw [searchGo_append db s bc1 ((mid, bloom) :: rest) [] acc hpre hlen,
    MinuteDB.searchGo, if_pos hbloom, hfail]
  rfl

/-- Counterexample to C3 as stated: with one live minute holding a result
followed by a failing minute, `MinuteDB::search` returns an error instead of
the accumulated non-empty result list. -/
theorem c3_counterexample :
    MinuteDB.search [(idA, bTrue), (idB, bTrue)] dbAfail SearchTree.none = .err ∧
    Minute.search mA SearchTree.none ≠ [] := by decide

/-- Witness for C3 (amended) at a concrete cache, db and query. -/
theorem c3_witness :
    MinuteDB.search ([(idA, bTrue)] ++ (idB, bTrue) :: []) dbAfail SearchTree.none
      = .err :=
  c3_search_propagates_error [(idA, bTrue)] [] idB bTrue dbAfail SearchTree.none
    [logA] (by decide) (by decide) (by decide) (by decide)

/-- A completed scan returns the accumulator followed by the concatenation,
in cache order, of the contributions of the first `k` scanned entries. -/
theorem searchGo_ok_concat (db : MinuteId → Option Handle) (s : SearchTree) :
    ∀ (bc : List (MinuteId × (Str → Bool))) (acc r : List Log),
      MinuteDB.searchGo db s bc acc = .ok r →
      ∃ k, k ≤ bc.length ∧
        r = acc ++ ((bc.take k).map (minuteContribution db s)).flatten
  | [], acc, r, h => by
    cases h
    exact ⟨0, by simp, by simp⟩
  | (mid, bloom) :: rest, acc, r, h => by
    rw [MinuteDB.searchGo] at h
    have hcontrib : ∀ k', ((mid, bloom) :: rest).take (k' + 1)
        = (mid, bloom) :: rest.take k' := fun _ => rfl
    by_cases hb : s.bloom_test bloom = true
    · rw [if_pos hb] at h
      cases hdb : db mid with
      | none =>
        rw [hdb] at h
        have h2 : MinuteDB.searchGo db s rest acc = .ok r := h
        obtain ⟨k, hk, hr⟩ := searchGo_ok_concat db s rest acc r h2
        refine ⟨k + 1, by simp; omega, ?_⟩
        rw [hcontrib, List.map_cons, List.flatten_cons, hr]
        have hc : minuteContribution db s (mid, bloom) = [] := by
          unfold minuteContribution
          rw [if_pos hb, hdb]
        rw [hc, List.nil_append]
      | some hd =>
        rw [hdb] at h
        cases hd with
        | live m =>
          have hc : minuteContribution db s (mid, bloom) = Minute.search m s := by
            unfold minuteContribution
            rw [if_pos hb, hdb]
          have h2 : (if 30 < (acc ++ Minute.search m s).length
              then Outcome.ok (acc ++ Minute.search m s)
              else MinuteDB.searchGo db s rest (acc ++ Minute.search m s))
              = .ok r := h
          by_cases h30 : 30 < (acc ++ Minute.search m s).length
          · rw [if_pos h30] at h2
            cases h2
            refine ⟨1, by simp, ?_⟩
            rw [hcontrib, List.take_zero, List.map_cons, List.map_nil,
              List.flatten_cons, List.flatten_nil, List.append_nil, hc]
          · rw [if_neg h30] at h2
            obtain ⟨k, hk, hr⟩ := searchGo_ok_concat db s rest (acc ++ Minute.search m s) r h2
            refine ⟨k + 1, by simp; omega, ?_⟩
            rw [hcontrib, List.map_cons, List.flatten_cons, hr, hc,
              List.append_assoc]
        | failed =>
          have h2 : (Outcome.err : Outcome (List Log)) = .ok r := h
          cases h2
    · rw [if_neg hb] at h
      obtain ⟨k, hk, hr⟩ := searchGo_ok_concat db s rest acc r h
      refine ⟨k + 1, by simp; omega, ?_⟩
      rw [hcontrib, List.map_cons, List.flatten_cons, hr]
      have hc : minuteContribution db s (mid, bloom) = [] := by
        unfold minuteContribution
        rw [if_neg hb]
      rw [hc, List.nil_append]

/-- C4 (amended): `MinuteDB::search` visits the cached minutes in the bloom
cache's iteration order, which for a `BTreeMap` is ascending `MinuteId`
order, i.e. oldest first; the returned list is the concatenation of the
scanned minutes' results in that order (truncated to 1000), so every result
drawn from an older minute precedes every result drawn from a more recent
minute, and within one minute storage order is kept. -/
theorem c4_search_oldest_first (bc : List (MinuteId × (Str → Bool)))
    (db : MinuteId → Option Handle) (s : SearchTree) (r : List Log)
    (hsort : bc.Pairwise (fun a b => MinuteId.ltB a.1 b.1 = true))
    (hok : MinuteDB.search bc db s = .ok r) :
    ∃ k, k ≤ bc.length ∧
      r = (((bc.take k).map (minuteContribution db s)).flatten).take 1000 ∧
      (bc.take k).Pairwise (fun a b => MinuteId.ltB a.1 b.1 = true) := by
  unfold MinuteDB.search at hok
  cases hgo : MinuteDB.searchGo db s bc [] with
  | ok r0 =>
    rw [hgo] at hok
    have hr : r = r0.take 1000 := by
      cases hok
      rfl
    obtain ⟨k, hk, hr0⟩ := searchGo_ok_concat db s bc [] r0 hgo
    refine ⟨k, hk, ?_, List.Pairwise.sublist (List.take_sublist _ _) hsort⟩
    rw [hr, hr0, List.nil_append]
  | err =>
    rw [hgo] at hok
    cases hok
  | crash =>
    rw [hgo] at hok
    cases hok

/-- Counterexample to C4 as stated: with two cached minutes in ascending
(`BTreeMap`) order, the returned list places the older minute's result
before the newer minute's result, not the other way around. -/
theorem c4_counterexample :
    MinuteId.ltB idA idB = true ∧
    MinuteDB.search [(idA, bTrue), (idB, bTrue)] dbAB SearchTree.none
      = .ok [logA, logB] ∧
    logA ∈ Minute.search mA SearchTree.none ∧
    logA ∉ Minute.search mB SearchTree.none ∧
    logB ∈ Minute.search mB SearchTree.none ∧
    logB ∉ Minute.search mA SearchTree.none ∧
    logA ≠ logB := by decide

/-- Witness for C4 (amended) at a concrete cache, db and query. -/
theorem c4_witness :
    ∃ k, k ≤ [(idA, bTrue), (idB, bTrue)].length ∧
      [logA, logB] = ((([(idA, bTrue), (idB, bTrue)].take k).map
        (minuteContribution dbAB SearchTree.none)).flatten).take 1000 ∧
      ([(idA, bTrue), (idB, bTrue)].take k).Pairwise
        (fun a b => MinuteId.ltB a.1 b.1 = true) :=
  c4_search_oldest_first [(idA, bTrue), (idB, bTrue)] dbAB SearchTree.none
    [logA, logB] (by decide) (by decide)

/-- C5: the list `scan_and_clean` returns is sorted descending by `sort_key`
with length at most `n_minutes`; splitting the descending sort of the parsed
files at `n_minutes` gives exactly the returned list and the list of files
deleted from disk. -/
theorem c5_scan_sort_truncate (entries : List RawEntry) (n : Nat)
    (kept deleted : List FileInfo)
    (h : FileInfo.scan_and_clean entries n = .ok (kept, deleted)) :
    kept.length ≤ n ∧
    (kept ++ deleted).Pairwise (fun a b => b.sort_key ≤ a.sort_key) ∧
    kept = (kept ++ deleted).take n ∧
    deleted = (kept ++ deleted).drop n ∧
    ∃ files, FileInfo.scanFold entries [] [] = .ok files ∧
      (kept ++ deleted).Perm files := by
  unfold FileInfo.scan_and_clean at h
  cases hsf : FileInfo.scanFold entries [] [] with
  | crash =>
    rw [hsf] at h
    cases h
  | err =>
    rw [hsf] at h
    cases h
  | ok files =>
    rw [hsf] at h
    have hpair : (kept, deleted)
        = ((files.insertionSort fileGe).take n, (files.insertionSort fileGe).drop n) := by
      cases h
      rfl
    have hkept : kept = (files.insertionSort fileGe).take n :=
      congrArg Prod.fst hpair
    have hdel : deleted = (files.insertionSort fileGe).drop n :=
      congrArg Prod.snd hpair
    have happ : kept ++ deleted = files.insertionSort fileGe := by
      rw [hkept, hdel, List.take_append_drop]
    refine ⟨?_, ?_, ?_, ?_, files, rfl, ?_⟩
    · rw [hkept, List.length_take]
      omega
    · rw [happ]
      exact List.sorted_insertionSort fileGe files
    · rw [happ, hkept]
    · rw [happ, hdel]
    · rw [happ]
      exact List.perm_insertionSort fileGe files

/-- Witness for C5 at a concrete directory listing. -/
theorem c5_witness :
    [fiC5b, fiC5c].length ≤ 2 ∧
    ([fiC5b, fiC5c] ++ [fiC5a]).Pairwise (fun a b => b.sort_key ≤ a.sort_key) ∧
    [fiC5b, fiC5c] = ([fiC5b, fiC5c] ++ [fiC5a]).take 2 ∧
    [fiC5a] = ([fiC5b, fiC5c] ++ [fiC5a]).drop 2 ∧
    ∃ files, FileInfo.scanFold [entC5a, entC5b, entC5c] [] [] = .ok files ∧
      ([fiC5b, fiC5c] ++ [fiC5a]).Perm files :=
  c5_scan_sort_truncate [entC5a, entC5b, entC5c] 2 [fiC5b, fiC5c] [fiC5a] (by decide)

/-- If no entry's path makes `parse_path` panic, the walk completes and every
collected file has a path that parses successfully. -/
theorem scanFold_ok_of_no_crash :
    ∀ (entries : List RawEntry) (files : List FileInfo) (unop : List Str),
      (∀ e ∈ entries, FileInfo.parse_path e.path ≠ .crash) →
      (∀ fi ∈ files, ∃ r, FileInfo.parse_path fi.path = .ok r) →
      ∃ out, FileInfo.scanFold entries files unop = .ok out ∧
        ∀ fi ∈ out, ∃ r, FileInfo.parse_path fi.path = .ok r
  | [], files, unop, _, hinv => ⟨files, rfl, hinv⟩
  | e :: rest, files, unop, hnc, hinv => by
    have hncr : ∀ e' ∈ rest, FileInfo.parse_path e'.path ≠ .crash :=
      fun e' he' => hnc e' (List.mem_cons_of_mem _ he')
    rw [FileInfo.scanFold]
    by_cases hf : e.isFile = false
    · rw [if_pos hf]
      exact scanFold_ok_of_no_crash rest files unop hncr hinv
    · rw [if_neg hf]
      by_cases hunop : removeAll dbStr e.path ∈
          (if strContains e.path swpStr || strContains e.path walStr then
            insertUniq unop (removeAll walStr (removeAll swpStr e.path))
          else unop)
      · rw [if_pos hunop]
        exact scanFold_ok_of_no_crash rest files _ hncr hinv
      · rw [if_neg hunop]
        cases hpp : FileInfo.parse_path e.path with
        | crash => exact absurd hpp (hnc e (List.mem_cons_self _ _))
        | err => exact scanFold_ok_of_no_crash rest files _ hncr hinv
        | ok r =>
          obtain ⟨d, h, mi, uid⟩ := r
          apply scanFold_ok_of_no_crash rest (files ++ [mkFileInfo e d h mi uid]) _ hncr
          intro fi hfi
          rcases List.mem_append.mp hfi with hfi | hfi
          · exact hinv fi hfi
          · rcases List.mem_singleton.mp hfi with rfl
            exact ⟨(d, h, mi, uid), hpp⟩

/-- C6 (amended): an entry whose path fails the numeric parses (without
running into an out-of-bounds index) is logged and skipped: provided no
entry's path makes `parse_path` panic, the scan succeeds and every file it
returns or deletes has a successfully parsing path — so a file whose path
does not parse appears in neither list.  (A path that indexes out of bounds
inside `parse_path`, e.g. one with no dash in its stem, panics instead; see
the counterexample.) -/
theorem c6_parse_failures_skipped (entries : List RawEntry) (n : Nat)
    (hnc : ∀ e ∈ entries, FileInfo.parse_path e.path ≠ .crash) :
    ∃ kept deleted, FileInfo.scan_and_clean entries n = .ok (kept, deleted) ∧
      ∀ fi ∈ kept ++ deleted, ∃ r, FileInfo.parse_path fi.path = .ok r := by
  obtain ⟨out, hout, hparse⟩ :=
    scanFold_ok_of_no_crash entries [] [] hnc (by intro fi hfi; cases hfi)
  refine ⟨(out.insertionSort fileGe).take n, (out.insertionSort fileGe).drop n, ?_, ?_⟩
  · unfold FileInfo.scan_and_clean
    rw [hout]
  · intro fi hfi
    rw [List.take_append_drop] at hfi
    exact hparse fi ((List.perm_insertionSort fileGe out).mem_iff.mp hfi)

/-- Counterexample to C6 as stated: the relative path `\2\4\6.db` does not
parse as `<day>/<hour>/<minute>-<shard_id>.db` (its stem has no shard id),
yet `parse_path` panics on the out-of-bounds `split[1]` after the minute
parses, and the whole scan panics with it instead of skipping the file. -/
theorem c6_counterexample :
    FileInfo.parse_path (("\\2\\4\\6.db").toList) = .crash ∧
    FileInfo.scan_and_clean [entC6crash] 5 = .crash := by decide

/-- Witness for C6 (amended) at a concrete listing with a skipped file. -/
theorem c6_witness :
    ∃ kept deleted,
      FileInfo.scan_and_clean [entC5a, entC6err] 5 = .ok (kept, deleted) ∧
      ∀ fi ∈ kept ++ deleted, ∃ r, FileInfo.parse_path fi.path = .ok r :=
  c6_parse_failures_skipped [entC5a, entC6err] 5 (by decide)

theorem digitChar_facts : ∀ d : Nat, d < 10 →
    (Nat.digitChar d).isDigit = true ∧ digitVal (Nat.digitChar d) = d ∧
    Nat.digitChar d ≠ '-' ∧ Nat.digitChar d ≠ '+' := by decide

theorem natToStr_all_digits (n : Nat) : ∀ c ∈ natToStr n, c.isDigit = true := by
  intro c hc
  unfold natToStr at hc
  split at hc
  · rcases List.mem_singleton.mp hc with rfl
    rfl
  · rw [List.mem_map] at hc
    obtain ⟨d, hd, rfl⟩ := hc
    rw [List.mem_reverse] at hd
    exact (digitChar_facts d (Nat.digits_lt_base (by norm_num) hd)).1

theorem natToStr_ne_nil (n : Nat) : natToStr n ≠ [] := by
  unfold natToStr
  split
  · simp
  · next h =>
    simp only [ne_eq, List.map_eq_nil_iff, List.reverse_eq_nil_iff]
    exact Nat.digits_ne_nil_iff_ne_zero.mpr h

theorem dash_not_mem_natToStr (n : Nat) : '-' ∉ natToStr n := by
  intro h
  have := natToStr_all_digits n '-' h
  cases this

theorem plus_not_head_natToStr (n : Nat) : (natToStr n).headD ' ' ≠ '+' := by
  cases hs : natToStr n with
  | nil => exact absurd hs (natToStr_ne_nil n)
  | cons c rest =>
    have hc : c.isDigit = true :=
      natToStr_all_digits n c (hs ▸ List.mem_cons_self c rest)
    simp only [List.headD_cons]
    intro hplus
    rw [hplus] at hc
    cases hc

theorem stripPlus_natToStr (n : Nat) : stripPlus (natToStr n) = natToStr n := by
  unfold stripPlus
  rw [if_neg (plus_not_head_natToStr n)]

theorem digitsVal_reverse_map :
    ∀ ds : List Nat, (∀ d ∈ ds, d < 10) →
      digitsVal (ds.reverse.map Nat.digitChar) = Nat.ofDigits 10 ds := by
  have key : ∀ (ds : List Nat) (a : Nat), (∀ d ∈ ds, d < 10) →
      (ds.reverse.map Nat.digitChar).foldl (fun x c => x * 10 + digitVal c) a
        = a * 10 ^ ds.length + Nat.ofDigits 10 ds := by
    intro ds
    induction ds with
    | nil => intro a _; simp [Nat.ofDigits]
    | cons d rest ih =>
      intro a hlt
      have hd : d < 10 := hlt d (List.mem_cons_self _ _)
      have hrest : ∀ x ∈ rest, x < 10 := fun x hx => hlt x (List.mem_cons_of_mem _ hx)
      rw [List.reverse_cons, List.map_append, List.foldl_append, ih a hrest]
      simp only [List.map_cons, List.map_nil, List.foldl_cons, List.foldl_nil,
        List.length_cons, Nat.ofDigits_cons]
      rw [(digitChar_facts d hd).2.1]
      ring
  intro ds hlt
  have := key ds 0 hlt
  unfold digitsVal
  rw [this]
  simp

theorem digitsVal_natToStr (n : Nat) : digitsVal (natToStr n) = n := by
  unfold natToStr
  split
  · next h =>
    subst h
    rfl
  · rw [digitsVal_reverse_map (Nat.digits 10 n)
      (fun d hd => Nat.digits_lt_base (by norm_num) hd)]
    exact Nat.ofDigits_digits 10 n

/-- Printing a `u32` value and parsing it back gives the value. -/
theorem parseU32_natToStr {n : Nat} (h : n < 4294967296) :
    parseU32 (natToStr n) = some n := by
  unfold parseU32
  rw [stripPlus_natToStr]
  rw [if_pos ⟨natToStr_ne_nil n, List.all_eq_true.mpr
    (fun c hc => natToStr_all_digits n c hc)⟩]
  rw [digitsVal_natToStr]
  rw [if_pos h]

/-- Splitting the printed id on dashes when the unique id is dash-free. -/
theorem splitOnChar_toStr (m : MinuteId) :
    splitOnChar '-' (MinuteId.toStr m)
      = natToStr m.day :: natToStr m.hour :: natToStr m.minute ::
        splitOnChar '-' m.unique_id := by
  unfold MinuteId.toStr
  rw [splitOnChar_append _ (dash_not_mem_natToStr m.day),
    splitOnChar_append _ (dash_not_mem_natToStr m.hour),
    splitOnChar_append _ (dash_not_mem_natToStr m.minute)]

/-- C10 (amended): for every `MinuteId` with u32-range fields whose
`unique_id` contains no dash — the empty unique id included —
`from_string(to_string(id))` succeeds and returns the original id; whenever
the unique id does contain a dash, the round-trip is broken (parsing returns
a different id). -/
theorem c10_roundtrip (m : MinuteId) (hd : m.day < 4294967296)
    (hh : m.hour < 4294967296) (hm : m.minute < 4294967296) :
    (('-') ∉ m.unique_id → MinuteId.fromStr (MinuteId.toStr m) = .ok m) ∧
    (('-') ∈ m.unique_id → MinuteId.fromStr (MinuteId.toStr m) ≠ .ok m) := by
  constructor
  · intro hnd
    have hsplit : splitOnChar '-' (MinuteId.toStr m)
        = [natToStr m.day, natToStr m.hour, natToStr m.minute, m.unique_id] := by
      rw [splitOnChar_toStr, splitOnChar_of_not_mem hnd]
    unfold MinuteId.fromStr
    rw [hsplit]
    simp only [List.get?_cons_zero, List.get?_cons_succ]
    rw [parseU32_natToStr hd, parseU32_natToStr hh, parseU32_natToStr hm]
  · intro hdash
    obtain ⟨u1, u2, huid, hnd1⟩ := exists_first_occurrence hdash
    have hsplit : splitOnChar '-' (MinuteId.toStr m)
        = [natToStr m.day, natToStr m.hour, natToStr m.minute, u1]
          ++ splitOnChar '-' u2 := by
      rw [splitOnChar_toStr, huid, splitOnChar_append _ hnd1]
      rfl
    unfold MinuteId.fromStr
    rw [hsplit]
    simp only [List.cons_append, List.get?_cons_zero, List.get?_cons_succ]
    rw [parseU32_natToStr hd, parseU32_natToStr hh, parseU32_natToStr hm]
    intro heq
    injection heq with h1
    have hu : u1 = m.unique_id := congrArg MinuteId.unique_id h1
    have hlen : u1.length = m.unique_id.length := congrArg List.length hu
    rw [huid] at hlen
    simp only [List.length_append, List.length_cons] at hlen
    omega

/-- Counterexample to C10 as stated: the round-trip also succeeds for the
empty `unique_id` (the trailing dash yields a fourth, empty piece), so the
encoding is a left inverse on more than exactly the non-empty dash-free
ids. -/
theorem c10_counterexample :
    (⟨0, 0, 0, []⟩ : MinuteId).unique_id = [] ∧
    MinuteId.fromStr (MinuteId.toStr ⟨0, 0, 0, []⟩) = .ok ⟨0, 0, 0, []⟩ := by
  constructor
  · rfl
  · decide

/-- Witness for C10 (amended) at two concrete ids: a dash-free unique id
round-trips, a dashed one does not. -/
theorem c10_witness :
    MinuteId.fromStr (MinuteId.toStr ⟨2, 4, 6, ("quick").toList⟩)
      = .ok ⟨2, 4, 6, ("quick").toList⟩ ∧
    MinuteId.fromStr (MinuteId.toStr ⟨1, 2, 3, ("a-b").toList⟩)
      ≠ .ok ⟨1, 2, 3, ("a-b").toList⟩ :=
  ⟨(c10_roundtrip ⟨2, 4, 6, ("quick").toList⟩ (by decide) (by decide) (by decide)).1
      (by decide),
    (c10_roundtrip ⟨1, 2, 3, ("a-b").toList⟩ (by decide) (by decide) (by decide)).2
      (by decide)⟩
